import Mathlib

/-!
Verification of the keyword-search core of `simple-rag-server.py`
(`SunziKnowledgeBase`): document loading, title extraction, relevance
scoring, paragraph extraction, result sorting/truncation, and answer
composition.  Strings are modelled as lists of characters; the Python
string primitives used by the code (`lower`, `split`, `count`, `in`,
`strip`, `join`, slicing) are embedded as executable functions below.
-/

/-- Strings are modelled as lists of characters (Python slices and
`len` act on code points, as `List Char` does). -/
abbrev Str := List Char

/-- The whitespace characters recognised by Python `str.split()` and
`str.strip()` (the ASCII subset, which covers the material here). -/
def isSpace (c : Char) : Bool :=
  c == ' ' || c == '\t' || c == '\n' || c == '\r' || c == '\x0b' || c == '\x0c'

/-- Python `str.lower()`, applied characterwise (ASCII case mapping). -/
def lowerStr (s : Str) : Str := s.map Char.toLower

/-- Python substring membership `needle in haystack`. -/
def containsSub (needle : Str) : Str → Bool
  | [] => needle.isEmpty
  | c :: rest => needle.isPrefixOf (c :: rest) || containsSub needle rest

/-- Left-to-right non-overlapping occurrence scan; `fuel` bounds the
recursion and is instantiated with the haystack length (each step
consumes at least one character, so the `fuel = 0` branch with a
non-empty haystack is never reached from `countOcc`). -/
def countOccAux (needle : Str) : Nat → Str → Nat
  | _, [] => 0
  | 0, _ :: _ => 0
  | fuel + 1, c :: rest =>
    if needle.isPrefixOf (c :: rest) then
      1 + countOccAux needle fuel (List.drop (needle.length - 1) rest)
    else
      countOccAux needle fuel rest

/-- Python `haystack.count(needle)`: number of non-overlapping
occurrences, scanning left to right (`s.count("")` is `len(s) + 1`). -/
def countOcc (needle haystack : Str) : Nat :=
  if needle.isEmpty then haystack.length + 1 else countOccAux needle haystack.length haystack

/-- Worker for `splitWs`; `fuel` bounds the recursion and is
instantiated with the string length (each step consumes at least one
character, so the `fuel = 0` branch is never reached from `splitWs`). -/
def splitWsAux : Nat → Str → List Str
  | _, [] => []
  | 0, _ :: _ => []
  | fuel + 1, c :: rest =>
    if isSpace c then splitWsAux fuel rest
    else
      (c :: rest.takeWhile (fun x => !isSpace x)) ::
        splitWsAux fuel (rest.dropWhile (fun x => !isSpace x))

/-- Python `str.split()` with no argument: splits on runs of
whitespace and never yields empty tokens. -/
def splitWs (s : Str) : List Str := splitWsAux s.length s

/-- Worker for `splitOnSep`: `acc` holds the current chunk reversed;
`fuel` bounds the recursion and is instantiated with the string length
(each step consumes at least one character, so the `fuel = 0` branch is
never reached from `splitOnSep`). -/
def splitSepAux (sep : Str) : Nat → Str → Str → List Str
  | _, acc, [] => [acc.reverse]
  | 0, acc, s => [acc.reverse ++ s]
  | fuel + 1, acc, c :: rest =>
    if sep.isPrefixOf (c :: rest) then
      acc.reverse :: splitSepAux sep fuel [] (List.drop (sep.length - 1) rest)
    else
      splitSepAux sep fuel (c :: acc) rest

/-- Python `s.split(sep)` for a non-empty separator `sep`:
non-overlapping separator occurrences, scanned left to right; empty
chunks are kept. -/
def splitOnSep (sep s : Str) : List Str := splitSepAux sep s.length [] s

/-- Python `str.strip()`: remove leading and trailing whitespace. -/
def stripStr (s : Str) : Str :=
  ((s.dropWhile isSpace).reverse.dropWhile isSpace).reverse

/-- Python `sep.join(chunks)`. -/
def joinSep (sep : Str) : List Str → Str
  | [] => []
  | [x] => x
  | x :: y :: xs => x ++ sep ++ joinSep sep (y :: xs)

/-- The line separator used by `extract_title` (`content.split('\n')`). -/
def nl1 : Str := ['\n']

/-- The paragraph separator used by `extract_relevant_content`
(`content.split('\n\n')`). -/
def nl2 : Str := ['\n', '\n']

/-- The markdown level-one heading marker `"# "` tested by
`extract_title` via `line.startswith('# ')`. -/
def hashSpace : Str := ['#', ' ']

/-- One entry of `SunziKnowledgeBase.documents`: the value stored under
a filename key (`title`, `content`, `file_path` of the source file). -/
structure Doc where
  title : Str
  content : Str
  file_path : Str
deriving DecidableEq

/-- The `SearchResult` pydantic model.  The score is a `Nat`: the code
only ever stores the integer keyword count in `relevance_score`. -/
structure SearchResult where
  title : Str
  content : Str
  relevance_score : Nat
  file_path : Str
deriving DecidableEq

/-- The `for line in lines` loop of `SunziKnowledgeBase.extract_title`:
return the text after `"# "` (stripped) of the first line starting with
the marker. -/
def titleLoop : List Str → Str
  | [] => "Unknown Title".toList
  | line :: rest =>
    if hashSpace.isPrefixOf line then stripStr (line.drop 2) else titleLoop rest

/-- `SunziKnowledgeBase.extract_title`. -/
def extract_title (content : Str) : Str := titleLoop (splitOnSep nl1 content)

/-- `SunziKnowledgeBase.extract_relevant_content`: split into
paragraphs on `"\n\n"`, keep (stripped) the paragraphs whose lowercase
form contains some query word, join the first three with `"\n\n"`. -/
def extract_relevant_content (content : Str) (query_words : List Str) : Str :=
  let paragraphs := splitOnSep nl2 content
  let relevant_paragraphs := paragraphs.foldl
    (fun acc paragraph =>
      let paragraph_lower := lowerStr paragraph
      if query_words.any (fun word => containsSub word paragraph_lower) then
        acc ++ [stripStr paragraph]
      else acc) []
  joinSep nl2 (relevant_paragraphs.take 3)

/-- The scoring loop of `SunziKnowledgeBase.search`: for each query
word present in the lowercased content, add its occurrence count. -/
def scoreDoc (query_words : List Str) (content_lower : Str) : Nat :=
  query_words.foldl
    (fun score word =>
      if containsSub word content_lower then score + countOcc word content_lower
      else score) 0

/-- The `SearchResult` built by `search` for the store entry `nd`
(key and document): note `file_path` receives the store key. -/
def mkResult (query_words : List Str) (nd : Str × Doc) : SearchResult :=
  { title := nd.2.title
    content := extract_relevant_content nd.2.content query_words
    relevance_score := scoreDoc query_words (lowerStr nd.2.content)
    file_path := nd.1 }

/-- The result-accumulation loop of `SunziKnowledgeBase.search`,
walking the store in insertion order and appending a result for every
document with positive score. -/
def rawResults (documents : List (Str × Doc)) (query_words : List Str) : List SearchResult :=
  documents.foldl
    (fun results nd =>
      if 0 < scoreDoc query_words (lowerStr nd.2.content) then
        results ++ [mkResult query_words nd]
      else results) []

/-- Stable insertion into a descending-by-score list: an element moves
past another only when the other's score is strictly larger, which is
exactly the order produced by Python's stable
`list.sort(key=score, reverse=True)`. -/
def insertDesc (r : SearchResult) : List SearchResult → List SearchResult
  | [] => [r]
  | x :: xs =>
    if r.relevance_score < x.relevance_score then x :: insertDesc r xs
    else r :: x :: xs

/-- Stable sort by descending `relevance_score`, the behaviour of
`results.sort(key=lambda x: x.relevance_score, reverse=True)`. -/
def sortByScoreDesc (l : List SearchResult) : List SearchResult := l.foldr insertDesc []

/-- `SunziKnowledgeBase.search`: lowercase and tokenize the query,
score every document, keep positive scores, sort stably by descending
score, truncate to `max_results`. -/
def search (documents : List (Str × Doc)) (query : Str) (max_results : Nat) :
    List SearchResult :=
  let query_words := splitWs (lowerStr query)
  (sortByScoreDesc (rawResults documents query_words)).take max_results

/-- The fixed no-information answer of `generate_answer`. -/
def noInfoMessage : Str :=
  "申し訳ございませんが、関連する情報が見つかりませんでした。".toList

/-- `SunziKnowledgeBase.generate_answer`. -/
def generate_answer (query : Str) (results : List SearchResult) : Str :=
  match results with
  | [] => noInfoMessage
  | best_result :: rest =>
    let answer := "「".toList ++ best_result.title ++ "」より：\n\n".toList
      ++ best_result.content.take 500
    if 0 < rest.length then
      answer ++ "\n\n関連する他の教えもあります：".toList
        ++ joinSep ", ".toList (rest.map SearchResult.title)
    else answer

/-- Abstract view of the data directory seen by `load_documents`:
whether it exists, and for each markdown file its name, path, and read
outcome (`none` models an `open`/`read` exception). -/
structure FileSys where
  dirExists : Bool
  files : List (Str × Str × Option Str)

/-- `SunziKnowledgeBase.load_documents` over the abstract directory:
returns the store (filename-keyed, in scan order); a missing directory
yields the empty store, a failing file is skipped. -/
def load_documents (fs : FileSys) : List (Str × Doc) :=
  if !fs.dirExists then []
  else fs.files.foldl
    (fun docs file =>
      match file.2.2 with
      | some content => docs ++ [(file.1, ⟨extract_title content, content, file.2.1⟩)]
      | none => docs) []

/-- Spec formulation of the relevance score: the sum, over the
whitespace-delimited tokens of the lowercased query, of the number of
occurrences of the token in the document's lowercased content. -/
def specRelevance (query content : Str) : Nat :=
  ((splitWs (lowerStr query)).map (fun w => countOcc w (lowerStr content))).sum

/-- The C4 claim read literally: keep the paragraphs containing some
query token as a case-insensitive substring (both sides lowercased). -/
def extractRelevantCI (content : Str) (query_words : List Str) : Str :=
  joinSep nl2
    ((((splitOnSep nl2 content).filter
        (fun p => query_words.any (fun w => containsSub (lowerStr w) (lowerStr p)))).map
          stripStr).take 3)

/-- The amended C4 spec formulation: keep the paragraphs whose
lowercased text contains some query token as a substring. -/
def extractRelevantLC (content : Str) (query_words : List Str) : Str :=
  joinSep nl2
    ((((splitOnSep nl2 content).filter
        (fun p => query_words.any (fun w => containsSub w (lowerStr p)))).map
          stripStr).take 3)

/-- Spec formulation of `extract_title`: the first heading line,
selected with `find?`. -/
def extractTitleFind (content : Str) : Str :=
  match (splitOnSep nl1 content).find? (fun line => hashSpace.isPrefixOf line) with
  | some line => stripStr (line.drop 2)
  | none => "Unknown Title".toList

/-- Content of `a.md` in the worked example of the spec. -/
def contentA : Str := "# Strategy\n\nWin without fighting.\n\nPlan carefully.".toList

/-- Content of `b.md` in the worked example of the spec. -/
def contentB : Str := "# Tactics\n\nFight smart.".toList

/-- The `a.md` document of the worked example. -/
def docA : Doc := ⟨extract_title contentA, contentA, "/app/data/a.md".toList⟩

/-- The `b.md` document of the worked example. -/
def docB : Doc := ⟨extract_title contentB, contentB, "/app/data/b.md".toList⟩

/-- The example store: `a.md` inserted first, `b.md` second. -/
def exampleStore : List (Str × Doc) :=
  [("a.md".toList, docA), ("b.md".toList, docB)]

/-! ### Basic lemmas about the string primitives -/

/-- The empty needle is a substring of every string. -/
theorem containsSub_nil (s : Str) : containsSub [] s = true := by
  cases s <;> simp [containsSub, List.isPrefixOf]

/-- Boolean prefix test agrees with the existence of a completion. -/
theorem isPrefixOf_eq_true_iff (l₁ l₂ : Str) :
    l₁.isPrefixOf l₂ = true ↔ ∃ t, l₁ ++ t = l₂ := by
  induction l₁ generalizing l₂ with
  | nil => simp [List.isPrefixOf]
  | cons a as ih =>
    cases l₂ with
    | nil => simp [List.isPrefixOf]
    | cons b bs =>
      simp only [List.isPrefixOf, Bool.and_eq_true, beq_iff_eq, ih, List.cons_append,
        List.cons.injEq]
      constructor
      · rintro ⟨rfl, t, rfl⟩; exact ⟨t, rfl, rfl⟩
      · rintro ⟨t, rfl, rfl⟩; exact ⟨rfl, t, rfl⟩

/-- A prefix is in particular a substring. -/
theorem containsSub_of_isPrefixOf {w s : Str} (h : w.isPrefixOf s = true) :
    containsSub w s = true := by
  cases s with
  | nil =>
    rcases (isPrefixOf_eq_true_iff w []).mp h with ⟨t, ht⟩
    rcases List.append_eq_nil.mp ht with ⟨rfl, rfl⟩
    simp [containsSub]
  | cons c rest => simp [containsSub, h]

/-- A substring of the tail is a substring. -/
theorem containsSub_cons_of {w s : Str} (c : Char) (h : containsSub w s = true) :
    containsSub w (c :: s) = true := by
  simp [containsSub, h]

/-- Unfolding of a failed substring test on a cons cell. -/
theorem containsSub_cons_false {w : Str} {c : Char} {rest : Str}
    (h : containsSub w (c :: rest) = false) :
    w.isPrefixOf (c :: rest) = false ∧ containsSub w rest = false := by
  simpa [containsSub] using h

/-- When the needle occurs nowhere, the occurrence scan finds nothing. -/
theorem countOccAux_eq_zero {w : Str} : ∀ (fuel : Nat) (s : Str),
    containsSub w s = false → countOccAux w fuel s = 0 := by
  intro fuel
  induction fuel with
  | zero => intro s h; cases s <;> rfl
  | succ n ih =>
    intro s h
    cases s with
    | nil => rfl
    | cons c rest =>
      rcases containsSub_cons_false h with ⟨h₁, h₂⟩
      simp [countOccAux, h₁, ih rest h₂]

/-- Python `count` is zero exactly when the `in` test fails. -/
theorem countOcc_eq_zero {w s : Str} (h : containsSub w s = false) : countOcc w s = 0 := by
  have hw : w ≠ [] := by
    intro hnil; rw [hnil, containsSub_nil] at h; exact Bool.noConfusion h
  rw [countOcc, if_neg (by simpa using hw)]
  exact countOccAux_eq_zero _ s h

/-- The score loop of `search` computes the sum, over the query words,
of the occurrence counts in the lowercased content. -/
theorem scoreDoc_eq_sum (query_words : List Str) (c : Str) :
    scoreDoc query_words c = (query_words.map (fun w => countOcc w c)).sum := by
  have key : ∀ (ws : List Str) (acc : Nat),
      ws.foldl (fun score word =>
        if containsSub word c then score + countOcc word c else score) acc
        = acc + (ws.map (fun w => countOcc w c)).sum := by
    intro ws
    induction ws with
    | nil => intro acc; simp
    | cons w ws ih =>
      intro acc
      by_cases h : containsSub w c = true
      · simp only [List.foldl_cons, h, if_pos, List.map_cons, List.sum_cons]
        rw [ih]; ring
      · have h0 : countOcc w c = 0 := countOcc_eq_zero (by simpa using h)
        simp only [List.foldl_cons, h, Bool.false_eq_true, if_false, List.map_cons,
          List.sum_cons, h0]
        rw [ih]; ring
  simpa using key query_words 0

/-- A document in which no query word occurs scores zero. -/
theorem scoreDoc_eq_zero {query_words : List Str} {c : Str}
    (h : ∀ w ∈ query_words, containsSub w c = false) : scoreDoc query_words c = 0 := by
  rw [scoreDoc_eq_sum]
  apply List.sum_eq_zero
  intro x hx
  rcases List.mem_map.mp hx with ⟨w, hw, rfl⟩
  exact countOcc_eq_zero (h w hw)

/-- A positive score exhibits a query word occurring in the content. -/
theorem scoreDoc_pos_exists {query_words : List Str} {c : Str}
    (h : 0 < scoreDoc query_words c) : ∃ w ∈ query_words, containsSub w c = true := by
  by_contra hc
  push_neg at hc
  have : scoreDoc query_words c = 0 :=
    scoreDoc_eq_zero (fun w hw => by simpa using hc w hw)
  omega

/-! ### The result-accumulation loop and the stable sort -/

/-- The accumulation loop of `search` builds, in store order, one
result per document with positive score. -/
theorem rawResults_eq (documents : List (Str × Doc)) (query_words : List Str) :
    rawResults documents query_words =
      (documents.filter
        (fun nd => decide (0 < scoreDoc query_words (lowerStr nd.2.content)))).map
        (mkResult query_words) := by
  have key : ∀ (l : List (Str × Doc)) (acc : List SearchResult),
      l.foldl (fun results nd =>
        if 0 < scoreDoc query_words (lowerStr nd.2.content) then
          results ++ [mkResult query_words nd]
        else results) acc
      = acc ++ (l.filter
          (fun nd => decide (0 < scoreDoc query_words (lowerStr nd.2.content)))).map
          (mkResult query_words) := by
    intro l
    induction l with
    | nil => intro acc; simp
    | cons nd l ih =>
      intro acc
      by_cases h : 0 < scoreDoc query_words (lowerStr nd.2.content)
      · simp [List.foldl_cons, if_pos h, ih, List.filter_cons, h]
      · simp [List.foldl_cons, if_neg h, ih, List.filter_cons, h]
  simpa [rawResults] using key documents []

/-- Membership in the accumulated results. -/
theorem mem_rawResults {documents : List (Str × Doc)} {query_words : List Str}
    {r : SearchResult} :
    r ∈ rawResults documents query_words ↔
      ∃ nd, nd ∈ documents ∧ 0 < scoreDoc query_words (lowerStr nd.2.content) ∧
        r = mkResult query_words nd := by
  rw [rawResults_eq]
  simp only [List.mem_map, List.mem_filter, decide_eq_true_eq]
  constructor
  · rintro ⟨nd, ⟨hmem, hpos⟩, rfl⟩; exact ⟨nd, hmem, hpos, rfl⟩
  · rintro ⟨nd, hmem, hpos, rfl⟩; exact ⟨nd, ⟨hmem, hpos⟩, rfl⟩

/-- Membership is preserved by the stable insertion. -/
theorem mem_insertDesc {x r : SearchResult} : ∀ {l : List SearchResult},
    x ∈ insertDesc r l ↔ x = r ∨ x ∈ l := by
  intro l
  induction l with
  | nil => simp [insertDesc]
  | cons y ys ih =>
    by_cases h : r.relevance_score < y.relevance_score
    · simp only [insertDesc, if_pos h, List.mem_cons, ih]
      tauto
    · simp only [insertDesc, if_neg h, List.mem_cons]

/-- Membership is preserved by the stable sort. -/
theorem mem_sortByScoreDesc {x : SearchResult} : ∀ {l : List SearchResult},
    x ∈ sortByScoreDesc l ↔ x ∈ l := by
  intro l
  induction l with
  | nil => simp [sortByScoreDesc]
  | cons y ys ih =>
    show x ∈ insertDesc y (sortByScoreDesc ys) ↔ _
    rw [mem_insertDesc]
    simp [ih]

/-- Inserting into a descending list keeps it descending. -/
theorem pairwise_insertDesc {r : SearchResult} : ∀ {l : List SearchResult},
    l.Pairwise (fun a b => b.relevance_score ≤ a.relevance_score) →
    (insertDesc r l).Pairwise (fun a b => b.relevance_score ≤ a.relevance_score) := by
  intro l
  induction l with
  | nil => intro _; simp [insertDesc]
  | cons y ys ih =>
    intro h
    rcases List.pairwise_cons.mp h with ⟨hy, hys⟩
    by_cases hlt : r.relevance_score < y.relevance_score
    · rw [insertDesc, if_pos hlt]
      refine List.pairwise_cons.mpr ⟨?_, ih hys⟩
      intro z hz
      rcases mem_insertDesc.mp hz with rfl | hz
      · omega
      · exact hy z hz
    · rw [insertDesc, if_neg hlt]
      refine List.pairwise_cons.mpr ⟨?_, h⟩
      intro z hz
      rcases List.mem_cons.mp hz with rfl | hz
      · omega
      · have := hy z hz; omega

/-- The sort produces a descending sequence of scores. -/
theorem sortByScoreDesc_pairwise : ∀ (l : List SearchResult),
    (sortByScoreDesc l).Pairwise (fun a b => b.relevance_score ≤ a.relevance_score) := by
  intro l
  induction l with
  | nil => simp [sortByScoreDesc]
  | cons y ys ih => exact pairwise_insertDesc ih

/-- Stability of the insertion, seen through score classes: the
elements of any fixed score are left in their relative order. -/
theorem filter_insertDesc (r : SearchResult) (s : Nat) : ∀ (l : List SearchResult),
    (insertDesc r l).filter (fun x => x.relevance_score == s) =
      (r :: l).filter (fun x => x.relevance_score == s) := by
  intro l
  induction l with
  | nil => rfl
  | cons y ys ih =>
    by_cases hlt : r.relevance_score < y.relevance_score
    · rw [insertDesc, if_pos hlt]
      by_cases hr : r.relevance_score = s
      · have hy : ¬ y.relevance_score = s := by omega
        simp only [List.filter_cons, ih]
        simp [hr, hy]
      · by_cases hy : y.relevance_score = s
        · simp only [List.filter_cons, ih]
          simp [hr, hy]
        · simp only [List.filter_cons, ih]
          simp [hr, hy]
    · rw [insertDesc, if_neg hlt]

/-- Stability of the sort: within each score class the original order
of the results is preserved. -/
theorem filter_sortByScoreDesc (s : Nat) : ∀ (l : List SearchResult),
    (sortByScoreDesc l).filter (fun x => x.relevance_score == s) =
      l.filter (fun x => x.relevance_score == s) := by
  intro l
  induction l with
  | nil => rfl
  | cons y ys ih =>
    show (insertDesc y (sortByScoreDesc ys)).filter _ = _
    rw [filter_insertDesc]
    simp only [List.filter_cons, ih]

/-- Every returned result arises from a stored document with positive
score. -/
theorem mem_search {documents : List (Str × Doc)} {query : Str} {max_results : Nat}
    {r : SearchResult} (h : r ∈ search documents query max_results) :
    ∃ nd, nd ∈ documents ∧
      0 < scoreDoc (splitWs (lowerStr query)) (lowerStr nd.2.content) ∧
      r = mkResult (splitWs (lowerStr query)) nd := by
  have h1 : r ∈ sortByScoreDesc (rawResults documents (splitWs (lowerStr query))) :=
    List.mem_of_mem_take h
  exact mem_rawResults.mp (mem_sortByScoreDesc.mp h1)

/-! ### Tokens produced by whitespace splitting -/

/-- Whitespace splitting yields only non-empty, whitespace-free tokens. -/
theorem splitWsAux_tokens : ∀ (fuel : Nat) (s : Str) (w : Str),
    w ∈ splitWsAux fuel s → w ≠ [] ∧ ∀ c ∈ w, isSpace c = false := by
  intro fuel
  induction fuel with
  | zero =>
    intro s w hw
    cases s with
    | nil => simp [splitWsAux] at hw
    | cons c rest => simp [splitWsAux] at hw
  | succ n ih =>
    intro s w hw
    cases s with
    | nil => simp [splitWsAux] at hw
    | cons c rest =>
      by_cases hc : isSpace c = true
      · rw [splitWsAux, if_pos hc] at hw
        exact ih rest w hw
      · rw [splitWsAux, if_neg hc] at hw
        rcases List.mem_cons.mp hw with rfl | hw
        · refine ⟨by simp, ?_⟩
          intro x hx
          rcases List.mem_cons.mp hx with rfl | hx
          · simpa using hc
          · have := List.mem_takeWhile_imp hx
            simpa using this
        · exact ih _ w hw

/-- Tokens of `splitWs` are non-empty and contain no whitespace. -/
theorem splitWs_tokens {s w : Str} (hw : w ∈ splitWs s) :
    w ≠ [] ∧ ∀ c ∈ w, isSpace c = false :=
  splitWsAux_tokens s.length s w hw

/-! ### Splitting on a separator and joining back -/

/-- The separator-splitting worker never returns an empty chunk list. -/
theorem splitSepAux_ne_nil (sep : Str) : ∀ (fuel : Nat) (acc s : Str),
    splitSepAux sep fuel acc s ≠ [] := by
  intro fuel
  induction fuel with
  | zero => intro acc s; cases s <;> simp [splitSepAux]
  | succ n ih =>
    intro acc s
    cases s with
    | nil => simp [splitSepAux]
    | cons c rest =>
      by_cases h : sep.isPrefixOf (c :: rest) = true
      · simp [splitSepAux, h]
      · rw [splitSepAux, if_neg h]
        exact ih _ rest

/-- Unfolding `joinSep` on a cons with a non-empty tail. -/
theorem joinSep_cons (sep : Str) (x : Str) {l : List Str} (h : l ≠ []) :
    joinSep sep (x :: l) = x ++ sep ++ joinSep sep l := by
  cases l with
  | nil => exact absurd rfl h
  | cons y ys => rfl

/-- Joining the chunks produced by the splitting worker restores the
accumulator followed by the remaining input. -/
theorem joinSep_splitSepAux {sep : Str} (hsep : sep ≠ []) : ∀ (fuel : Nat) (acc s : Str),
    joinSep sep (splitSepAux sep fuel acc s) = acc.reverse ++ s := by
  intro fuel
  induction fuel with
  | zero => intro acc s; cases s <;> simp [splitSepAux, joinSep]
  | succ n ih =>
    intro acc s
    cases s with
    | nil => simp [splitSepAux, joinSep]
    | cons c rest =>
      by_cases h : sep.isPrefixOf (c :: rest) = true
      · rw [splitSepAux, if_pos h,
          joinSep_cons sep acc.reverse (splitSepAux_ne_nil sep n [] _), ih]
        rcases (isPrefixOf_eq_true_iff sep (c :: rest)).mp h with ⟨t, ht⟩
        have hdrop : List.drop (sep.length - 1) rest = t := by
          have h1 : rest = List.drop 1 (sep ++ t) := by rw [ht]; rfl
          rw [h1, List.drop_drop]
          have h2 : 1 + (sep.length - 1) = sep.length := by
            have : 0 < sep.length := List.length_pos.mpr hsep
            omega
          rw [h2]
          simpa using List.drop_left sep t
        rw [hdrop, List.reverse_nil, List.nil_append, List.append_assoc, ht]
      · rw [splitSepAux, if_neg h, ih]
        simp

/-- Python `sep.join(s.split(sep)) == s` for a non-empty separator. -/
theorem joinSep_splitOnSep {sep : Str} (hsep : sep ≠ []) (s : Str) :
    joinSep sep (splitOnSep sep s) = s := by
  simpa using joinSep_splitSepAux hsep s.length [] s

/-! ### Lowercasing -/

/-- Lowercasing distributes over concatenation. -/
theorem lowerStr_append (a b : Str) : lowerStr (a ++ b) = lowerStr a ++ lowerStr b := by
  simp [lowerStr]

/-- Whitespace characters are fixed by the ASCII case mapping. -/
theorem toLower_of_isSpace {c : Char} (h : isSpace c = true) : Char.toLower c = c := by
  have h' : c = ' ' ∨ c = '\t' ∨ c = '\n' ∨ c = '\r' ∨ c = '\x0b' ∨ c = '\x0c' := by
    simp only [isSpace, Bool.or_eq_true, beq_iff_eq] at h
    tauto
  rcases h' with rfl | rfl | rfl | rfl | rfl | rfl <;> decide

/-- A character whose lowercase form is not whitespace is itself not
whitespace. -/
theorem isSpace_of_toLower {c : Char} (h : isSpace (Char.toLower c) = false) :
    isSpace c = false := by
  by_contra hc
  have hc' : isSpace c = true := by
    cases h' : isSpace c
    · exact absurd h' hc
    · rfl
  rw [toLower_of_isSpace hc'] at h
  rw [hc'] at h
  exact Bool.noConfusion h

/-- Lowercasing a `"\n\n"`-join is the join of the lowercased chunks. -/
theorem lowerStr_joinSep_nl2 : ∀ (l : List Str),
    lowerStr (joinSep nl2 l) = joinSep nl2 (l.map lowerStr) := by
  intro l
  induction l with
  | nil => rfl
  | cons x xs ih =>
    cases xs with
    | nil => rfl
    | cons y ys =>
      have hnl : lowerStr nl2 = nl2 := by decide
      calc lowerStr (joinSep nl2 (x :: y :: ys))
          = lowerStr x ++ nl2 ++ lowerStr (joinSep nl2 (y :: ys)) := by
            show lowerStr (x ++ nl2 ++ joinSep nl2 (y :: ys)) = _
            rw [lowerStr_append, lowerStr_append, hnl]
        _ = lowerStr x ++ nl2 ++ joinSep nl2 (List.map lowerStr (y :: ys)) := by rw [ih]
        _ = joinSep nl2 (List.map lowerStr (x :: y :: ys)) := by
            rw [List.map_cons, List.map_cons]; rfl

/-! ### Occurrences cannot cross a separator they do not contain -/

/-- A prefix of `u ++ c :: v` avoiding `c` is already a prefix of `u`. -/
theorem prefix_stops_before {w : Str} {c : Char} (hc : c ∉ w) :
    ∀ {u v : Str}, w <+: (u ++ c :: v) → w <+: u := by
  induction w with
  | nil => intro u v _; exact ⟨u, rfl⟩
  | cons a w' ih =>
    intro u v h
    cases u with
    | nil =>
      rcases List.cons_prefix_cons.mp h with ⟨rfl, _⟩
      exact absurd (List.mem_cons_self a w') hc
    | cons x u' =>
      rcases List.cons_prefix_cons.mp h with ⟨rfl, h'⟩
      have hc' : c ∉ w' := fun hm => hc (List.mem_cons_of_mem a hm)
      exact List.cons_prefix_cons.mpr ⟨rfl, ih hc' h'⟩

/-- A prefix is a substring. -/
theorem containsSub_of_leading {w u : Str} (h : w <+: u) : containsSub w u = true := by
  cases u with
  | nil =>
    rcases h with ⟨t, ht⟩
    rcases List.append_eq_nil.mp ht with ⟨rfl, rfl⟩
    simp [containsSub]
  | cons c rest =>
    rcases h with ⟨t, ht⟩
    have : w.isPrefixOf (c :: rest) = true := (isPrefixOf_eq_true_iff w _).mpr ⟨t, ht⟩
    simp [containsSub, this]

/-- An occurrence in `u ++ c :: v` of a needle avoiding `c` lies
entirely in `u` or entirely in `v`. -/
theorem containsSub_append_cons {w : Str} {c : Char} (hc : c ∉ w) :
    ∀ {u v : Str}, containsSub w (u ++ c :: v) = true →
      containsSub w u = true ∨ containsSub w v = true := by
  intro u
  induction u with
  | nil =>
    intro v h
    rw [List.nil_append, containsSub, Bool.or_eq_true] at h
    rcases h with h | h
    · rcases (isPrefixOf_eq_true_iff w _).mp h with ⟨t, ht⟩
      cases w with
      | nil => exact Or.inl (containsSub_nil [])
      | cons a w' =>
        rcases List.cons.injEq .. ▸ ht with h'
        have : a = c := by
          have := congrArg (fun l => l.head?) ht
          simpa using this
        exact absurd (this ▸ List.mem_cons_self a w') hc
    · exact Or.inr h
  | cons x u' ih =>
    intro v h
    rw [List.cons_append, containsSub, Bool.or_eq_true] at h
    rcases h with h | h
    · have hp : w <+: (x :: u') := by
        have h' : w <+: (x :: (u' ++ c :: v)) := by
          rcases (isPrefixOf_eq_true_iff w _).mp h with ⟨t, ht⟩
          exact ⟨t, ht⟩
        exact prefix_stops_before hc (u := x :: u') h'
      exact Or.inl (containsSub_of_leading hp)
    · rcases ih h with h' | h'
      · exact Or.inl (containsSub_cons_of x h')
      · exact Or.inr h'

/-- The head of an occurring needle occurs as a character. -/
theorem head_mem_of_containsSub {a : Char} {w' : Str} : ∀ {s : Str},
    containsSub (a :: w') s = true → a ∈ s := by
  intro s
  induction s with
  | nil => intro h; simp [containsSub, List.isEmpty] at h
  | cons c rest ih =>
    intro h
    rw [containsSub, Bool.or_eq_true] at h
    rcases h with h | h
    · rcases (isPrefixOf_eq_true_iff _ _).mp h with ⟨t, ht⟩
      have : a = c := by
        have := congrArg (fun l => l.head?) ht
        simpa using this
      exact this ▸ List.mem_cons_self a _
    · exact List.mem_cons_of_mem c (ih h)

/-- A needle free of newlines occurring in a `"\n\n"`-join occurs in
one of the chunks. -/
theorem containsSub_joinSep_nl2 {w : Str} (hw : w ≠ []) (hnl : '\n' ∉ w) :
    ∀ {l : List Str}, containsSub w (joinSep nl2 l) = true →
      ∃ p ∈ l, containsSub w p = true := by
  intro l
  induction l with
  | nil =>
    intro h
    rw [show joinSep nl2 [] = [] from rfl] at h
    rcases w with _ | ⟨a, w'⟩
    · exact absurd rfl hw
    · simp [containsSub, List.isEmpty] at h
  | cons x xs ih =>
    intro h
    cases xs with
    | nil =>
      exact ⟨x, List.mem_cons_self x [], h⟩
    | cons y ys =>
      have hjoin : joinSep nl2 (x :: y :: ys) = x ++ '\n' :: '\n' :: joinSep nl2 (y :: ys) := by
        show x ++ nl2 ++ joinSep nl2 (y :: ys) = _
        rw [List.append_assoc]
        rfl
      rw [hjoin] at h
      rcases containsSub_append_cons hnl h with h' | h'
      · exact ⟨x, List.mem_cons_self x _, h'⟩
      · rw [containsSub, Bool.or_eq_true] at h'
        rcases h' with h' | h'
        · rcases (isPrefixOf_eq_true_iff _ _).mp h' with ⟨t, ht⟩
          rcases w with _ | ⟨a, w''⟩
          · exact absurd rfl hw
          · have : a = '\n' := by
              have := congrArg (fun l => l.head?) ht
              simpa using this
            exact absurd (this ▸ List.mem_cons_self a _) hnl
        · rcases ih h' with ⟨p, hp, hps⟩
          exact ⟨p, List.mem_cons_of_mem x hp, hps⟩

/-! ### Stripping preserves a non-whitespace witness -/

/-- Dropping leading whitespace keeps some non-whitespace character. -/
theorem dropWhile_keeps_nonspace {s : Str} (h : ∃ c ∈ s, isSpace c = false) :
    ∃ c ∈ s.dropWhile isSpace, isSpace c = false := by
  induction s with
  | nil => simpa using h
  | cons x rest ih =>
    by_cases hx : isSpace x = true
    · rw [List.dropWhile_cons_of_pos hx]
      apply ih
      rcases h with ⟨c, hc, hcs⟩
      rcases List.mem_cons.mp hc with rfl | hc
      · rw [hx] at hcs; exact Bool.noConfusion hcs
      · exact ⟨c, hc, hcs⟩
    · rw [List.dropWhile_cons_of_neg hx]
      exact ⟨x, List.mem_cons_self x rest, by simpa using hx⟩

/-- A string containing a non-whitespace character strips to a
non-empty string. -/
theorem stripStr_ne_nil {s : Str} (h : ∃ c ∈ s, isSpace c = false) : stripStr s ≠ [] := by
  intro hnil
  rw [stripStr] at hnil
  rw [List.reverse_eq_nil_iff, List.dropWhile_eq_nil_iff] at hnil
  rcases dropWhile_keeps_nonspace h with ⟨c, hc, hcs⟩
  have : isSpace c = true := hnil c (List.mem_reverse.mpr hc)
  rw [this] at hcs
  exact Bool.noConfusion hcs

/-- A join whose first chunk is non-empty is non-empty. -/
theorem joinSep_ne_nil {sep x : Str} (hx : x ≠ []) (l : List Str) :
    joinSep sep (x :: l) ≠ [] := by
  cases l with
  | nil => simpa [joinSep] using hx
  | cons y ys =>
    show x ++ sep ++ joinSep sep (y :: ys) ≠ []
    simp [hx]

/-! ### The paragraph-selection loop of extract_relevant_content -/

/-- The accumulation loop of `extract_relevant_content` is filtering
followed by stripping. -/
theorem extract_relevant_content_eq_filter (content : Str) (query_words : List Str) :
    extract_relevant_content content query_words =
      joinSep nl2
        ((((splitOnSep nl2 content).filter
            (fun p => query_words.any (fun w => containsSub w (lowerStr p)))).map
              stripStr).take 3) := by
  have key : ∀ (l : List Str) (acc : List Str),
      l.foldl (fun acc paragraph =>
        if query_words.any (fun word => containsSub word (lowerStr paragraph)) then
          acc ++ [stripStr paragraph]
        else acc) acc
      = acc ++ (l.filter
          (fun p => query_words.any (fun w => containsSub w (lowerStr p)))).map stripStr := by
    intro l
    induction l with
    | nil => intro acc; simp
    | cons p l ih =>
      intro acc
      by_cases h : query_words.any (fun w => containsSub w (lowerStr p)) = true
      · rw [List.foldl_cons, if_pos h, ih]
        simp [List.filter_cons, h]
      · rw [List.foldl_cons, if_neg h, ih]
        simp only [List.filter_cons]
        have h' : query_words.any (fun w => containsSub w (lowerStr p)) = false :=
          Bool.eq_false_iff.mpr h
        simp [h']
  show joinSep nl2 _ = _
  rw [key]
  simp

/-- When some non-empty whitespace-free query word occurs in the
lowercased content, the extracted excerpt is non-empty. -/
theorem extract_relevant_content_ne_nil {content : Str} {query_words : List Str}
    (hws : ∀ w ∈ query_words, w ≠ [] ∧ ∀ c ∈ w, isSpace c = false)
    (htok : ∃ w ∈ query_words, containsSub w (lowerStr content) = true) :
    extract_relevant_content content query_words ≠ [] := by
  rcases htok with ⟨w, hwmem, hwc⟩
  rcases hws w hwmem with ⟨hwne, hwsp⟩
  have hnl : '\n' ∉ w := by
    intro hmem
    have := hwsp '\n' hmem
    rw [show isSpace '\n' = true from rfl] at this
    exact Bool.noConfusion this
  -- Move the occurrence into one paragraph.
  have hcontent : lowerStr content = joinSep nl2 ((splitOnSep nl2 content).map lowerStr) := by
    conv_lhs => rw [← joinSep_splitOnSep (show nl2 ≠ [] by simp [nl2]) content]
    exact lowerStr_joinSep_nl2 _
  rw [hcontent] at hwc
  rcases containsSub_joinSep_nl2 hwne hnl hwc with ⟨p', hp', hps⟩
  rcases List.mem_map.mp hp' with ⟨p, hp, rfl⟩
  -- The paragraph p passes the filter.
  have hcond : (fun q => query_words.any (fun w => containsSub w (lowerStr q))) p = true := by
    exact List.any_eq_true.mpr ⟨w, hwmem, hps⟩
  have hfilter : p ∈ (splitOnSep nl2 content).filter
      (fun q => query_words.any (fun w => containsSub w (lowerStr q))) :=
    List.mem_filter.mpr ⟨hp, hcond⟩
  rw [extract_relevant_content_eq_filter]
  rcases hq : (splitOnSep nl2 content).filter
      (fun q => query_words.any (fun w => containsSub w (lowerStr q))) with _ | ⟨q, qs⟩
  · rw [hq] at hfilter; simp at hfilter
  -- The first kept paragraph strips to something non-empty.
  · have hqcond : query_words.any (fun w => containsSub w (lowerStr q)) = true := by
      have := List.mem_filter.mp (hq ▸ List.mem_cons_self q qs)
      exact this.2
    rcases List.any_eq_true.mp hqcond with ⟨w', hw'mem, hw'q⟩
    rcases hws w' hw'mem with ⟨hw'ne, hw'sp⟩
    rcases w' with _ | ⟨a, w''⟩
    · exact absurd rfl hw'ne
    · have ha : a ∈ lowerStr q := head_mem_of_containsSub hw'q
      rcases List.mem_map.mp ha with ⟨c, hcq, hca⟩
      have hcns : isSpace c = false := by
        apply isSpace_of_toLower
        rw [hca]
        exact hw'sp a (List.mem_cons_self a w'')
      have hstrip : stripStr q ≠ [] := stripStr_ne_nil ⟨c, hcq, hcns⟩
      rw [List.map_cons]
      rw [show (stripStr q :: (qs.map stripStr)).take 3
            = stripStr q :: ((qs.map stripStr).take 2) from rfl]
      exact joinSep_ne_nil hstrip _

/-! ### Remaining helpers -/

/-- In a store with distinct keys (a Python dict), a key determines
its document. -/
theorem nodup_key_unique : ∀ {l : List (Str × Doc)} {name : Str} {d₁ d₂ : Doc},
    (l.map Prod.fst).Nodup → (name, d₁) ∈ l → (name, d₂) ∈ l → d₁ = d₂ := by
  intro l
  induction l with
  | nil => intro name d₁ d₂ _ h₁ _; simp at h₁
  | cons a l ih =>
    intro name d₁ d₂ hnd h₁ h₂
    rw [List.map_cons, List.nodup_cons] at hnd
    rcases List.mem_cons.mp h₁ with h₁h | h₁t
    · rcases List.mem_cons.mp h₂ with h₂h | h₂t
      · have := h₁h.trans h₂h.symm
        exact ((Prod.mk.injEq _ _ _ _).mp this).2
      · exfalso
        have hm : name ∈ l.map Prod.fst := List.mem_map.mpr ⟨(name, d₂), h₂t, rfl⟩
        have ha : Prod.fst a = name := by rw [← h₁h]
        exact hnd.1 (ha ▸ hm)
    · rcases List.mem_cons.mp h₂ with h₂h | h₂t
      · exfalso
        have hm : name ∈ l.map Prod.fst := List.mem_map.mpr ⟨(name, d₁), h₁t, rfl⟩
        have ha : Prod.fst a = name := by rw [← h₂h]
        exact hnd.1 (ha ▸ hm)
      · exact ih hnd.2 h₁t h₂t

/-- The title loop returns the first heading line, as `find?` does. -/
theorem titleLoop_eq_find : ∀ (lines : List Str),
    titleLoop lines =
      match lines.find? (fun line => hashSpace.isPrefixOf line) with
      | some line => stripStr (line.drop 2)
      | none => "Unknown Title".toList := by
  intro lines
  induction lines with
  | nil => rfl
  | cons line rest ih =>
    by_cases h : hashSpace.isPrefixOf line = true
    · rw [titleLoop, if_pos h, List.find?_cons_of_pos _ h]
    · rw [titleLoop, if_neg h, List.find?_cons_of_neg _ (by simpa using h), ih]

/-- The code's score loop agrees with the spec-side sum of counts. -/
theorem specRelevance_eq_scoreDoc (query content : Str) :
    specRelevance query content
      = scoreDoc (splitWs (lowerStr query)) (lowerStr content) := by
  rw [specRelevance, scoreDoc_eq_sum]

/-! ### Claim theorems -/

/-- C1: for every store with distinct keys, every result returned by
`search` carries relevance_score equal to the sum, over the
whitespace-delimited lowercased query tokens, of the number of
occurrences of the token in the document's lowercased content; and for
a query matching exactly one document (and a positive result budget, as
the Query model requires), `search` returns exactly one result whose
`file_path` is the document's key and whose score is that sum. -/
theorem search_relevance_score_spec (documents : List (Str × Doc)) (query : Str)
    (max_results : Nat) (hkeys : (documents.map Prod.fst).Nodup) :
    (∀ r, r ∈ search documents query max_results →
      ∀ name doc, (name, doc) ∈ documents → r.file_path = name →
        r.relevance_score = specRelevance query doc.content)
    ∧ (∀ name doc, 1 ≤ max_results →
        documents.filter (fun nd => decide (0 < specRelevance query nd.2.content))
          = [(name, doc)] →
        ∃ r, search documents query max_results = [r] ∧ r.file_path = name ∧
          r.relevance_score = specRelevance query doc.content) := by
  constructor
  · intro r hr name doc hmem hfp
    rcases mem_search hr with ⟨nd, hnd, hpos, rfl⟩
    rcases nd with ⟨n₁, d₁⟩
    have hn : n₁ = name := hfp
    subst hn
    have hd : d₁ = doc := nodup_key_unique hkeys hnd hmem
    subst hd
    show scoreDoc (splitWs (lowerStr query)) (lowerStr d₁.content) = _
    rw [specRelevance_eq_scoreDoc]
  · intro name doc hm hfilter
    have hpred : (fun nd : Str × Doc => decide (0 < specRelevance query nd.2.content))
        = (fun nd : Str × Doc =>
            decide (0 < scoreDoc (splitWs (lowerStr query)) (lowerStr nd.2.content))) := by
      funext nd
      rw [specRelevance_eq_scoreDoc]
    rw [hpred] at hfilter
    have hraw : rawResults documents (splitWs (lowerStr query))
        = [mkResult (splitWs (lowerStr query)) (name, doc)] := by
      rw [rawResults_eq, hfilter]
      rfl
    refine ⟨mkResult (splitWs (lowerStr query)) (name, doc), ?_, rfl, ?_⟩
    · show (sortByScoreDesc (rawResults documents (splitWs (lowerStr query)))).take
          max_results = _
      rw [hraw]
      show (insertDesc _ []).take max_results = _
      rw [insertDesc]
      cases max_results with
      | zero => omega
      | succ k => simp
    · show scoreDoc (splitWs (lowerStr query)) (lowerStr doc.content) = _
      rw [specRelevance_eq_scoreDoc]

/-- C2: for every store, query and result budget, the sequence
returned by `search` is sorted by descending relevance_score; within
each score class the results keep the order of `rawResults`, which
walks the store in document insertion order; and at most `max_results`
results are returned. -/
theorem search_sorted_stable_truncated (documents : List (Str × Doc)) (query : Str)
    (max_results : Nat) :
    (search documents query max_results).Pairwise
        (fun a b => b.relevance_score ≤ a.relevance_score)
    ∧ (∀ s : Nat,
        (search documents query max_results).filter (fun r => r.relevance_score == s)
          <+: (rawResults documents (splitWs (lowerStr query))).filter
                (fun r => r.relevance_score == s))
    ∧ (search documents query max_results).length ≤ max_results := by
  refine ⟨?_, ?_, ?_⟩
  · exact (sortByScoreDesc_pairwise _).sublist (List.take_sublist _ _)
  · intro s
    refine ⟨((sortByScoreDesc (rawResults documents (splitWs (lowerStr query)))).drop
        max_results).filter (fun r => r.relevance_score == s), ?_⟩
    rw [← List.filter_append]
    show ((sortByScoreDesc _).take max_results ++ (sortByScoreDesc _).drop
        max_results).filter _ = _
    rw [List.take_append_drop, filter_sortByScoreDesc]
  · exact List.length_take_le _ _

/-- C3: every result returned by `search` has relevance_score at least
one; zero-score documents never produce a result. -/
theorem search_score_pos (documents : List (Str × Doc)) (query : Str)
    (max_results : Nat) (r : SearchResult)
    (h : r ∈ search documents query max_results) : 1 ≤ r.relevance_score := by
  rcases mem_search h with ⟨nd, _, hpos, rfl⟩
  show 1 ≤ scoreDoc (splitWs (lowerStr query)) (lowerStr nd.2.content)
  omega

/-- C4 counterexample: with the uppercase token "FIGHT", the claimed
case-insensitive paragraph test (`extractRelevantCI`) keeps the
paragraph "Fight", but the code lowercases only the paragraph and so
drops it, returning the empty string. -/
theorem extract_relevant_ci_cex :
    extract_relevant_content "Fight".toList ["FIGHT".toList]
        ≠ extractRelevantCI "Fight".toList ["FIGHT".toList]
    ∧ extract_relevant_content "Fight".toList ["FIGHT".toList] = []
    ∧ extractRelevantCI "Fight".toList ["FIGHT".toList] = "Fight".toList := by
  refine ⟨by decide, by decide, by decide⟩

/-- C4 (amended): `extract_relevant_content` splits the content into
paragraphs on blank-line boundaries, keeps in original order exactly
the paragraphs whose lowercased text contains at least one query token
as a substring (for the lowercase tokens produced by `search` this is
case-insensitive matching), and returns the first at most three
qualifying paragraphs, trimmed, joined with blank-line separators —
the empty string when none qualify. -/
theorem extract_relevant_content_lc_eq (content : Str) (query_words : List Str) :
    extract_relevant_content content query_words
      = extractRelevantLC content query_words := by
  rw [extract_relevant_content_eq_filter]
  rfl

/-- C5: for a non-empty result list, `generate_answer` is the best
result's title in quotes followed by at most the first 500 characters
of its content, with — exactly when there are further results — an
appended "other related teachings" sentence listing the comma-joined
remaining titles. -/
theorem generate_answer_format (query : Str) (best : SearchResult)
    (rest : List SearchResult) :
    generate_answer query (best :: rest)
      = "「".toList ++ best.title ++ "」より：\n\n".toList ++ best.content.take 500
        ++ (if rest.isEmpty then []
            else "\n\n関連する他の教えもあります：".toList
              ++ joinSep ", ".toList (rest.map SearchResult.title))
    ∧ ("「".toList ++ best.title ++ "」より：\n\n".toList)
        <+: generate_answer query (best :: rest)
    ∧ (best.content.take 500).length ≤ 500 := by
  refine ⟨?_, ?_, List.length_take_le _ _⟩
  · cases rest with
    | nil => simp [generate_answer]
    | cons r rs => simp [generate_answer, List.append_assoc]
  · cases rest with
    | nil =>
      refine ⟨best.content.take 500, ?_⟩
      simp [generate_answer, List.append_assoc]
    | cons r rs =>
      refine ⟨best.content.take 500 ++ ("\n\n関連する他の教えもあります：".toList
        ++ joinSep ", ".toList ((r :: rs).map SearchResult.title)), ?_⟩
      simp [generate_answer, List.append_assoc]

/-- C6: when no whitespace-delimited token of the lowercased query
occurs in any stored document's lowercased content, `search` returns
the empty sequence, and `generate_answer` on an empty result list is
the fixed no-information message, whatever the query. -/
theorem search_no_match (documents : List (Str × Doc)) (query : Str) (max_results : Nat)
    (h : ∀ w ∈ splitWs (lowerStr query), ∀ nd ∈ documents,
        containsSub w (lowerStr nd.2.content) = false) :
    search documents query max_results = []
    ∧ generate_answer query [] = noInfoMessage := by
  constructor
  · have hraw : rawResults documents (splitWs (lowerStr query)) = [] := by
      rw [rawResults_eq]
      have hfil : documents.filter
          (fun nd => decide (0 < scoreDoc (splitWs (lowerStr query))
            (lowerStr nd.2.content))) = [] := by
        rw [List.filter_eq_nil_iff]
        intro nd hnd
        have h0 : scoreDoc (splitWs (lowerStr query)) (lowerStr nd.2.content) = 0 :=
          scoreDoc_eq_zero (fun w hw => h w hw nd hnd)
        simp [h0]
      rw [hfil]
      rfl
    show (sortByScoreDesc (rawResults documents (splitWs (lowerStr query)))).take
        max_results = []
    rw [hraw]
    simp [sortByScoreDesc]
  · rfl

/-- C7: `extract_title` returns the stripped text after the marker of
the first line beginning with the single-level heading marker `"# "`,
and the placeholder "Unknown Title" when no line does. -/
theorem extract_title_first_heading (content : Str) :
    extract_title content = extractTitleFind content := by
  rw [extract_title, extractTitleFind, titleLoop_eq_find]

/-- C8: when the configured data directory does not exist,
`load_documents` returns normally with an empty store. -/
theorem load_documents_missing_dir (fs : FileSys) (h : fs.dirExists = false) :
    load_documents fs = [] := by
  rw [load_documents, h]
  rfl

set_option maxRecDepth 20000 in
/-- C9: on the two-document example store, the query "fight" returns
both documents, each with relevance_score exactly one (substring
matching counts "fight" inside "fighting"), in insertion order `a.md`
then `b.md`. -/
theorem search_fight_example :
    search exampleStore "fight".toList 3
      = [⟨"Strategy".toList, "Win without fighting.".toList, 1, "a.md".toList⟩,
         ⟨"Tactics".toList, "Fight smart.".toList, 1, "b.md".toList⟩] := by
  decide

/-- C10: every result returned by `search` has a non-empty content
excerpt: a positive score exhibits a whitespace-free token occurring in
the lowercased content, the occurrence lies within one paragraph, and
that paragraph survives trimming. -/
theorem search_content_nonempty (documents : List (Str × Doc)) (query : Str)
    (max_results : Nat) (r : SearchResult)
    (h : r ∈ search documents query max_results) : r.content ≠ [] := by
  rcases mem_search h with ⟨nd, _, hpos, rfl⟩
  show extract_relevant_content nd.2.content (splitWs (lowerStr query)) ≠ []
  apply extract_relevant_content_ne_nil
  · intro w hw
    exact splitWs_tokens hw
  · exact scoreDoc_pos_exists hpos

/-! ### Witnesses -/

set_option maxRecDepth 20000 in
/-- Witness for C1 on the example store: "plan" matches `a.md` only. -/
theorem search_relevance_score_spec_w :
    ∃ r, search exampleStore "plan".toList 3 = [r] ∧ r.file_path = "a.md".toList ∧
      r.relevance_score = specRelevance "plan".toList docA.content :=
  (search_relevance_score_spec exampleStore "plan".toList 3 (by decide)).2
    "a.md".toList docA (by decide) (by decide)

set_option maxRecDepth 20000 in
/-- Witness for C3: the first "fight" result scores at least one. -/
theorem search_score_pos_w :
    1 ≤ (SearchResult.mk "Strategy".toList "Win without fighting.".toList 1
          "a.md".toList).relevance_score :=
  search_score_pos exampleStore "fight".toList 3 _ (by decide)

set_option maxRecDepth 20000 in
/-- Witness for C6: "zzz" matches nothing in the example store. -/
theorem search_no_match_w :
    search exampleStore "zzz".toList 3 = []
    ∧ generate_answer "zzz".toList [] = noInfoMessage :=
  search_no_match exampleStore "zzz".toList 3 (by decide)

/-- Witness for C8: a missing directory with one readable file listed
still loads nothing. -/
theorem load_documents_missing_dir_w :
    load_documents ⟨false, [("a.md".toList, "/app/data/a.md".toList, some contentA)]⟩
      = [] :=
  load_documents_missing_dir _ rfl

set_option maxRecDepth 20000 in
/-- Witness for C10: the first "fight" result has non-empty content. -/
theorem search_content_nonempty_w :
    (SearchResult.mk "Strategy".toList "Win without fighting.".toList 1
        "a.md".toList).content ≠ [] :=
  search_content_nonempty exampleStore "fight".toList 3 _ (by decide)
